import Mathlib

/-!
Verification development for the interceptor-removal text-patching scripts
(refactor_client_complete.py, fix_client.py) of the repository.

Lines of the patched file are modelled as lists of characters.  Every scan
loop of the Python source is embedded as a structurally recursive function
with an explicit fuel argument; at each call site the fuel is the exact
iteration bound of the loop (the loop index increases by one per iteration
and is bounded by the buffer length), so the embedding computes exactly the
loop result.
-/

/-- A source line: one line of the patched file, as read by readlines()
(trailing newline included when present). -/
abbrev Line := List Char

/-- The opening brace character, written via its code point. -/
def openBr : Char := '\x7b'

/-- The closing brace character, written via its code point. -/
def closeBr : Char := '\x7d'

/-- Python str whitespace (the characters stripped by strip() and matched
by the regex class backslash-s): space, tab, newline, carriage return,
vertical tab, form feed. -/
def pyIsSpace (c : Char) : Bool :=
  c = ' ' || c = '\t' || c = '\n' || c = '\r' || c = '\x0b' || c = '\x0c'

/-- Python str.lstrip(): drop leading whitespace. -/
def pyLstrip (l : Line) : Line := l.dropWhile pyIsSpace

/-- Python str.rstrip(): drop trailing whitespace. -/
def pyRstrip (l : Line) : Line := (l.reverse.dropWhile pyIsSpace).reverse

/-- Python str.strip(): drop leading and trailing whitespace. -/
def pyStrip (l : Line) : Line := pyRstrip (pyLstrip l)

/-- Python substring containment test: pat in line. -/
def hasSub (pat : String) (l : Line) : Bool := decide (pat.toList <:+: l)

/-- Net brace count of one line: count of opening braces minus count of
closing braces, as maintained by the loop at lines 87-92 of
refactor_client_complete.py. -/
def braceDelta (l : Line) : Int := (l.count openBr : Int) - (l.count closeBr : Int)

/-- One outer-loop iteration of refactor(): the span of consumed input
lines [start, stop), the emitted output lines, and the rule that fired
(none means the plain copy branch at lines 136-138). -/
structure Step where
  start : Nat
  stop : Nat
  emit : List Line
  rule : Option Nat

/-- The skip loop of the helper-macro branch (refactor_client_complete.py
lines 35-36): advance until the current line strips to a closing brace and
the next line also strips to a closing brace; returns the loop exit index. -/
def helperMacroScanF : Nat → List Line → Nat → Nat
  | 0, _, i => i
  | f + 1, lines, i =>
    if i < lines.length then
      if pyStrip (lines.getD i []) = [closeBr] ∧ i + 1 < lines.length ∧
          pyStrip (lines.getD (i + 1) []) = [closeBr] then i
      else helperMacroScanF f lines (i + 1)
    else i

/-- The terminator scan of the call_before_request / call_after_response
branches (lines 106-110 and 129-133): scan forward from the marker line for
a line containing the terminator pattern; on a hit exit with the index one
past that line, otherwise exit at the buffer length. -/
def scanUntilF : Nat → List Line → List Char → Nat → Nat
  | 0, _, _, i => i
  | f + 1, lines, pat, i =>
    if i < lines.length then
      if pat <:+: lines.getD i [] then i + 1
      else scanUntilF f lines pat (i + 1)
    else i

/-- The skip loop of the with_interceptor branch (line 68): advance until
the current line strips to a closing brace and the following line (if any)
does not start with a comment after stripping. -/
def withScanF : Nat → List Line → Nat → Nat
  | 0, _, i => i
  | f + 1, lines, i =>
    if i < lines.length then
      if pyStrip (lines.getD i []) = [closeBr] ∧
          (lines.length ≤ i + 1 ∨
            ¬ ("//").toList.isPrefixOf (pyStrip (lines.getD (i + 1) [])) = true) then i
      else withScanF f lines (i + 1)
    else i

/-- The skip loop of the interceptors() accessor branch (line 76): advance
while the current line does not strip to a closing brace. -/
def bareScanF : Nat → List Line → Nat → Nat
  | 0, _, i => i
  | f + 1, lines, i =>
    if i < lines.length ∧ ¬ pyStrip (lines.getD i []) = [closeBr] then
      bareScanF f lines (i + 1)
    else i

/-- The full accessor branch (lines 76-81): skip to the closing brace, step
past it, and step past one further closing-brace line when present. -/
def accScanStop (lines : List Line) (i : Nat) : Nat :=
  if bareScanF (lines.length - i) lines i + 1 < lines.length ∧
      pyStrip (lines.getD (bareScanF (lines.length - i) lines i + 1) []) = [closeBr] then
    bareScanF (lines.length - i) lines i + 2
  else bareScanF (lines.length - i) lines i + 1

/-- The brace-counting loop of the interceptor-helper-methods branch
(lines 87-95): starting at index i with running count c, add the net brace
count of each line; stop with the index of the first line after which the
count is zero and which strips to exactly a closing brace; none when the
buffer is exhausted first. -/
def braceFindF : Nat → List Line → Nat → Int → Option Nat
  | 0, _, _, _ => none
  | f + 1, lines, i, c =>
    if i < lines.length then
      if c + braceDelta (lines.getD i []) = 0 ∧ pyStrip (lines.getD i []) = [closeBr] then
        some i
      else braceFindF f lines (i + 1) (c + braceDelta (lines.getD i []))
    else none

/-- Wrapper fixing the fuel of braceFindF to the remaining buffer length,
the exact iteration bound of the source loop. -/
def codeBraceScan (lines : List Line) (i : Nat) (c : Int) : Option Nat :=
  braceFindF (lines.length - i) lines i c

/-- Stop index of the interceptor-helper-methods branch (lines 84-96): the
scan starts one past the marker line with count zero; on a hit the loop
exits one past the found line, otherwise it exits at the buffer length. -/
def helperStop (lines : List Line) (i : Nat) : Nat :=
  match codeBraceScan lines (i + 1) 0 with
  | some j => j + 1
  | none => lines.length

/-- The statement-collection loop of the handle_api_error branch (lines
117-120): while the collected statement does not end (after rstrip) with a
semicolon, advance and append the next line; returns the loop exit index. -/
def stmtScanF : Nat → List Line → Nat → Line → Nat
  | 0, _, i, _ => i
  | f + 1, lines, i, s =>
    if i < lines.length ∧ ¬ (pyRstrip s).getLast? = some ';' then
      stmtScanF f lines (i + 1)
        (if i + 1 < lines.length then s ++ lines.getD (i + 1) [] else s)
    else i

/-- The replacement line emitted by the handle_api_error branch (line 122):
one space per leading-whitespace character of the original line, then the
fixed text map_api_error(e) and a newline. -/
def mapApiLine (line : Line) : Line :=
  List.replicate (line.length - (pyLstrip line).length) ' ' ++ ("map_api_error(e)\n").toList

/-- The rule table of refactor() (refactor_client_complete.py lines
14-138): the first rule whose condition holds at line i, with the
conditions in source order; none when no rule matches (the plain copy
branch).  Rules are numbered 1-16 in source order. -/
def ruleAt (lines : List Line) (i : Nat) : Option Nat :=
  if hasSub ("use crate::interceptor") (lines.getD i []) = true then some 1
  else if hasSub ("clippy::too_many_arguments") (lines.getD i []) = true ∨
      (0 < i ∧ hasSub ("Allow this lint") (lines.getD (i - 1) []) = true) then some 2
  else if hasSub ("use tokio::sync::RwLock") (lines.getD i []) = true then some 3
  else if hasSub ("// Helper macro to generate") (lines.getD i []) = true then some 4
  else if hasSub ("impl_interceptor_helpers!") (lines.getD i []) = true then some 5
  else if hasSub ("    interceptors: Arc<RwLock<InterceptorChain>>,") (lines.getD i []) = true then
    some 6
  else if hasSub ("since InterceptorChain") (lines.getD i []) = true then some 7
  else if hasSub (".field(\"interceptors\"") (lines.getD i []) = true then some 8
  else if hasSub ("            interceptors: Arc::new") (lines.getD i []) = true then some 9
  else if hasSub ("    /// Add an interceptor") (lines.getD i []) = true then some 10
  else if hasSub ("pub(crate) fn interceptors") (lines.getD i []) = true then some 11
  else if hasSub ("// Interceptor helper methods") (lines.getD i []) = true then some 12
  else if hasSub ("        let mut metadata = HashMap::new();") (lines.getD i []) = true ∨
      hasSub ("        let metadata = HashMap::new();") (lines.getD i []) = true then some 13
  else if hasSub ("        self.call_before_request") (lines.getD i []) = true then some 14
  else if hasSub (".handle_api_error(") (lines.getD i []) = true then some 15
  else if hasSub ("        self.call_after_response") (lines.getD i []) = true then some 16
  else none

/-- The next loop index after the iteration at line i, per fired rule:
the multi-line rules run their skip scans (with the exact fuel of the
source loops), every single-line rule and the copy branch advance by one. -/
def stepStop (lines : List Line) (i : Nat) : Nat :=
  if ruleAt lines i = some 4 then helperMacroScanF (lines.length - i) lines i + 2
  else if ruleAt lines i = some 10 then withScanF (lines.length - i) lines i + 1
  else if ruleAt lines i = some 11 then accScanStop lines i
  else if ruleAt lines i = some 12 then helperStop lines i
  else if ruleAt lines i = some 14 then scanUntilF (lines.length - i) lines (".await?").toList i
  else if ruleAt lines i = some 15 then stmtScanF (lines.length - i) lines i (lines.getD i []) + 1
  else if ruleAt lines i = some 16 then scanUntilF (lines.length - i) lines (".await;").toList i
  else i + 1

/-- The lines appended to the output by the iteration at line i: the
Debug-comment rule emits its fixed comment, the handle_api_error rule
emits its replacement line, the copy branch emits the line itself, every
other rule emits nothing. -/
def stepEmit (lines : List Line) (i : Nat) : List Line :=
  if ruleAt lines i = some 7 then [("// Custom Debug implementation\n").toList]
  else if ruleAt lines i = some 15 then [mapApiLine (lines.getD i [])]
  else if ruleAt lines i = none then [lines.getD i []]
  else []

/-- One iteration of the outer while loop of refactor()
(refactor_client_complete.py lines 14-138): the fired rule decides the
consumed span and the emitted lines. -/
def stepOnce (lines : List Line) (i : Nat) : Step :=
  ⟨i, stepStop lines i, stepEmit lines i, ruleAt lines i⟩

/-- The outer while loop of refactor() with its output accumulator. -/
def refactorLoopF : Nat → List Line → Nat → List Line → List Line
  | 0, _, _, out => out
  | f + 1, lines, i, out =>
    if i < lines.length then
      refactorLoopF f lines (stepOnce lines i).stop (out ++ (stepOnce lines i).emit)
    else out

/-- The whole refactor() transformation on an in-memory line buffer: run
the outer loop from index 0 with an empty output buffer.  Fuel equal to the
buffer length suffices because every iteration strictly increases the
index. -/
def refactor (lines : List Line) : List Line :=
  refactorLoopF lines.length lines 0 []

/-- The sequence of outer-loop iterations of refactor(), as Step records. -/
def stepsFromF : Nat → List Line → Nat → List Step
  | 0, _, _ => []
  | f + 1, lines, i =>
    if i < lines.length then
      stepOnce lines i :: stepsFromF f lines (stepOnce lines i).stop
    else []

/-- All outer-loop iterations of a refactor() run from index 0. -/
def refactorSteps (lines : List Line) : List Step :=
  stepsFromF lines.length lines 0

/-- The step list chains across the whole buffer: the first step starts at
i, every step starts strictly inside the buffer, consumes a nonempty span,
and the next step starts where the previous one stopped; the final stop is
at or past the end of the buffer. -/
def ChainedFrom (n : Nat) : Nat → List Step → Prop
  | i, [] => n ≤ i
  | i, s :: rest => s.start = i ∧ i < n ∧ i < s.stop ∧ ChainedFrom n s.stop rest

/-- Modelled from the spec: the audit trail of PatchResult (spec section 3)
as instrumentation over the loop of refactor(), which itself keeps no
applied-records list.  One record (rule_id, start_index, end_index) per
applied (non-copy) step; the end index is inclusive and clamped to the
buffer. -/
def auditTrail (lines : List Line) : List (Nat × Nat × Nat) :=
  ((refactorSteps lines).filter (fun s => s.rule.isSome)).map
    (fun s => (s.rule.getD 0, s.start, min s.stop lines.length - 1))

/-- ASCII word character, as classified by the regex word-boundary
assertion for the ASCII inputs handled here. -/
def isWordChar (c : Char) : Bool :=
  ('a' ≤ c && c ≤ 'z') || ('A' ≤ c && c ≤ 'Z') || ('0' ≤ c && c ≤ '9') || c = '_'

/-- A matcher as used by re.sub: given the character preceding the current
position in the input (none at the start) and the remaining input, return
the number of consumed characters and the replacement text, or none when
the pattern does not match here. -/
abbrev Matcher := Option Char → List Char → Option (Nat × List Char)

/-- The re.sub scan on a whole content string: at each position try the
matcher; on a hit emit the replacement and resume after the consumed text
(whose last character becomes the new preceding character, as re evaluates
word boundaries against the input); otherwise copy one character.  Fuel
equal to the content length is exact because every step consumes at least
one character. -/
def subScanF (m : Matcher) : Nat → Option Char → List Char → List Char
  | 0, _, s => s
  | f + 1, prev, s =>
    match s with
    | [] => []
    | c :: rest =>
      match m prev s with
      | some (k, repl) => repl ++ subScanF m f (some ((s.take k).getLastD c)) (s.drop k)
      | none => c :: subScanF m f (some c) rest

/-- Whether the matcher hits at any position of the content, scanned with
the same preceding-character bookkeeping as subScanF. -/
def scanHasMatchF (m : Matcher) : Nat → Option Char → List Char → Bool
  | 0, _, _ => false
  | f + 1, prev, s =>
    match s with
    | [] => false
    | c :: rest =>
      match m prev s with
      | some _ => true
      | none => scanHasMatchF m f (some c) rest

/-- Apply one re.sub rule to a whole content string. -/
def applySub (m : Matcher) (c : List Char) : List Char := subScanF m c.length none c

/-- Whether one re.sub rule matches anywhere in a content string. -/
def hasMatch (m : Matcher) (c : List Char) : Bool := scanHasMatchF m c.length none c

/-- The call_before_request deletion rule of fix_client.py (lines 11-16).
The regex is the eight-space indent, the literal call opening, at least one
character up to the first closing parenthesis, optional whitespace, then
the awaited-question terminator and a newline; the whole match is deleted. -/
def beforeReqMatch : Matcher := fun _ s =>
  if ("        self.call_before_request(").toList.isPrefixOf s then
    let r1 := s.drop 33
    let inner := r1.takeWhile (fun c => ¬ c = ')')
    if inner.length = 0 then none
    else
      match r1.drop inner.length with
      | [] => none
      | _ :: r3 =>
        let ws := r3.takeWhile pyIsSpace
        if (".await?;\n").toList.isPrefixOf (r3.drop ws.length) then
          some (33 + inner.length + 1 + ws.length + 9, [])
        else none
  else none

/-- The handle_api_error rewrite rule of fix_client.py (lines 19-24).
The regex captures a nonempty whitespace run, then the literal call opening
through the comma after e, then at least one character up to the first
closing parenthesis; the replacement is the captured whitespace followed by
the fixed call map_api_error(e). -/
def handleErrMatch : Matcher := fun _ s =>
  let ws := s.takeWhile pyIsSpace
  if ws.length = 0 then none
  else
    let r1 := s.drop ws.length
    if ("self.handle_api_error(e,").toList.isPrefixOf r1 then
      let r2 := r1.drop 24
      let mid := r2.takeWhile (fun c => ¬ c = ')')
      if mid.length = 0 then none
      else if r2.drop mid.length = [] then none
      else some (ws.length + 24 + mid.length + 1, ws ++ ("map_api_error(e)").toList)
    else none

/-- The call_after_response deletion rule of fix_client.py (lines 27-32),
the same shape as the before-request rule with the await-semicolon
terminator. -/
def afterRespMatch : Matcher := fun _ s =>
  if ("        self.call_after_response(").toList.isPrefixOf s then
    let r1 := s.drop 33
    let inner := r1.takeWhile (fun c => ¬ c = ')')
    if inner.length = 0 then none
    else
      match r1.drop inner.length with
      | [] => none
      | _ :: r3 =>
        let ws := r3.takeWhile pyIsSpace
        if (".await;\n").toList.isPrefixOf (r3.drop ws.length) then
          some (33 + inner.length + 1 + ws.length + 8, [])
        else none
  else none

/-- Boundary test of the regex word-boundary assertion against the
character preceding the current position. -/
def prevBoundary (prev : Option Char) : Bool :=
  match prev with
  | none => true
  | some c => ! isWordChar c

/-- Boundary test of the regex word-boundary assertion against the first
character of the remaining input. -/
def nextBoundary (r : List Char) : Bool :=
  match r.head? with
  | none => true
  | some d => ! isWordChar d

/-- Length of the optional comma consumed by the token alternative of the
metadata rule: one when the character after the token is a comma. -/
def metaCommaLen (s : List Char) : Nat := if (s.drop 8).head? = some ',' then 1 else 0

/-- Length of the whitespace run consumed by the trailing greedy
whitespace of the token alternative, after the optional comma. -/
def metaWsLen (s : List Char) : Nat :=
  (((s.drop 8).drop (metaCommaLen s)).takeWhile pyIsSpace).length

/-- The metadata deletion rule of fix_client.py (line 35): the alternation
of the mut-reference form, the plain-reference form, and the word-bounded
token followed by an optional comma and any whitespace; every match is
deleted.  Alternatives are tried in the order of the source pattern. -/
def metaMatch : Matcher := fun prev s =>
  if ("&mut metadata").toList.isPrefixOf s then some (13, [])
  else if ("&metadata").toList.isPrefixOf s then some (9, [])
  else if prevBoundary prev = true ∧ ("metadata").toList.isPrefixOf s then
    if nextBoundary (s.drop 8) = true then some (8 + metaCommaLen s + metaWsLen s, [])
    else none
  else none

/-- The first substitution of fix_client(). -/
def sub1 (c : List Char) : List Char := applySub beforeReqMatch c

/-- The second substitution of fix_client(). -/
def sub2 (c : List Char) : List Char := applySub handleErrMatch c

/-- The third substitution of fix_client(). -/
def sub3 (c : List Char) : List Char := applySub afterRespMatch c

/-- The final metadata substitution of fix_client() (line 35). -/
def removeMetadata (c : List Char) : List Char := applySub metaMatch c

/-- The whole fix_client() transformation on an in-memory content string:
the four substitutions in source order. -/
def fix_client (c : List Char) : List Char := removeMetadata (sub3 (sub2 (sub1 c)))

/-- Whether a content string contains a word-boundary-delimited occurrence
of the token metadata, scanned left to right. -/
def hasMetaTokenF : Nat → Option Char → List Char → Bool
  | 0, _, _ => false
  | f + 1, prev, s =>
    match s with
    | [] => false
    | c :: rest =>
      if prevBoundary prev = true ∧ ("metadata").toList.isPrefixOf s ∧
          nextBoundary (s.drop 8) = true then
        true
      else hasMetaTokenF f (some c) rest

/-- Wrapper for hasMetaTokenF with exact fuel. -/
def containsMetadataToken (s : List Char) : Bool := hasMetaTokenF s.length none s

/-- Stated from the claim and spec wording of the BalancedDelimiters span
strategy (spec section 4.2), for comparison with the brace loop of the
source: scanning from the start line, the depth counter is seeded at
initial_depth, updated by the net per-line delimiter count, and the
resolver returns the first line index at which the depth is back to zero
after having been positive at an earlier line boundary. -/
def specBalancedResolve : Nat → List Line → Nat → Int → Bool → Option Nat
  | 0, _, _, _, _ => none
  | f + 1, lines, i, depth, seenPos =>
    if i < lines.length then
      let d := depth + braceDelta (lines.getD i [])
      if seenPos = true ∧ d = 0 then some i
      else specBalancedResolve f lines (i + 1) d (seenPos || decide (0 < d))
    else none

/-- The spec-side resolver run from a start line with a given initial
depth. -/
def specResolveFrom (lines : List Line) (start : Nat) (depth : Int) : Option Nat :=
  specBalancedResolve (lines.length - start) lines start depth false

/-- Net brace count accumulated over the inclusive line range [i, k]. -/
def braceSum (lines : List Line) (i k : Nat) : Int :=
  ((List.range (k + 1 - i)).map (fun t => braceDelta (lines.getD (i + t) []))).sum

/-- File-handle operations performed by the scripts, in source order.  The
open-for-write operation models Python open(path, w), which truncates the
target file at open time; the temp-file and rename operations are the
atomic-replace steps the spec prescribes (no script performs them). -/
inductive FileOp where
  | openRead : FileOp
  | readAll : FileOp
  | openWriteTrunc : FileOp
  | writeAll : List Char → FileOp
  | writeTempFile : List Char → FileOp
  | renameTempOver : FileOp
deriving DecidableEq

/-- The file-operation sequence of fix_client() (fix_client.py lines 7-8
and 37-38): open and read the target, then open the same target for
writing (truncating it) and write the patched content. -/
def fixClientOps (input : List Char) : List FileOp :=
  [FileOp.openRead, FileOp.readAll, FileOp.openWriteTrunc, FileOp.writeAll (fix_client input)]

/-- Content of the target file after executing a sequence of file
operations against it, starting from the given content: open-for-write
truncates, a completed write stores its content, temp-file operations do
not touch the target. -/
def runOps (file : List Char) : List FileOp → List Char
  | [] => file
  | op :: rest =>
    runOps
      (match op with
        | FileOp.openWriteTrunc => []
        | FileOp.writeAll c => c
        | _ => file)
      rest

/-- Whether an operation sequence performs the temp-write-then-rename
atomic replacement prescribed by the spec. -/
def usesAtomicReplace (ops : List FileOp) : Bool :=
  ops.any
    (fun op =>
      match op with
      | FileOp.writeTempFile _ => true
      | FileOp.renameTempOver => true
      | _ => false)

/-- Concrete buffer for the balanced-delimiter comparison: a marker line
that opens a brace, then a line that closes it with trailing text. -/
def c1CexLines : List Line :=
  [("M ").toList ++ [openBr], ("x ").toList ++ [closeBr], ("tail").toList]

/-- The synthetic construct of the spec, one token per line: X, open brace,
A, open brace, close brace, B, close brace, tail. -/
def c1SynthLines : List Line :=
  [("X").toList, [openBr], ("A").toList, [openBr], [closeBr], ("B").toList,
    [closeBr], ("tail").toList]

/-- Concrete buffer with a call_before_request start marker and no
terminator below it. -/
def c2FailLines : List Line :=
  [("        self.call_before_request(x)\n").toList, ("more\n").toList]

/-- Concrete content on which the metadata deletion splices a new
occurrence of the token: deleting the mut-reference match from
meta&mut metadatadata concatenates meta with data. -/
def c5CexContent : List Char := ("meta&mut metadatadata").toList

/-- Concrete tab-indented line containing a handle_api_error call. -/
def c9TabLine : Line := ("\tx.handle_api_error(err);\n").toList

/-- Concrete space-indented line containing a handle_api_error call. -/
def c9SpaceLine : Line := (" x.handle_api_error(err);\n").toList

/-- Concrete one-line buffer used to instantiate the conservation theorem. -/
def c4DemoLines : List Line := [("fn main() \x7b\x7d\n").toList]

/-- Concrete content on which no fix_client rule matches. -/
def c5WitnessContent : List Char := ("fn demo() \x7b\x7d\n").toList

/-- Concrete nonempty original content for the file-operation model. -/
def c6Input : List Char := ("fn demo();\n").toList


theorem helperMacroScanF_ge (f : Nat) : ∀ (lines : List Line) (i : Nat),
    i ≤ helperMacroScanF f lines i := by
  induction f with
  | zero => intro lines i; simp [helperMacroScanF]
  | succ f ih =>
    intro lines i
    unfold helperMacroScanF
    split_ifs <;> first
      | omega
      | exact le_trans (Nat.le_succ i) (ih lines (i + 1))

theorem scanUntilF_ge (f : Nat) : ∀ (lines : List Line) (pat : List Char) (i : Nat),
    i ≤ scanUntilF f lines pat i := by
  induction f with
  | zero => intro lines pat i; simp [scanUntilF]
  | succ f ih =>
    intro lines pat i
    unfold scanUntilF
    split_ifs <;> first
      | omega
      | exact le_trans (Nat.le_succ i) (ih lines pat (i + 1))

theorem scanUntilF_gt (f : Nat) (lines : List Line) (pat : List Char) (i : Nat)
    (hf : 0 < f) (hi : i < lines.length) : i < scanUntilF f lines pat i := by
  cases f with
  | zero => omega
  | succ f =>
    unfold scanUntilF
    have := scanUntilF_ge f lines pat (i + 1)
    split_ifs <;> omega

theorem withScanF_ge (f : Nat) : ∀ (lines : List Line) (i : Nat),
    i ≤ withScanF f lines i := by
  induction f with
  | zero => intro lines i; simp [withScanF]
  | succ f ih =>
    intro lines i
    unfold withScanF
    split_ifs <;> first
      | omega
      | exact le_trans (Nat.le_succ i) (ih lines (i + 1))

theorem bareScanF_ge (f : Nat) : ∀ (lines : List Line) (i : Nat),
    i ≤ bareScanF f lines i := by
  induction f with
  | zero => intro lines i; simp [bareScanF]
  | succ f ih =>
    intro lines i
    unfold bareScanF
    split_ifs <;> first
      | omega
      | exact le_trans (Nat.le_succ i) (ih lines (i + 1))

theorem stmtScanF_ge (f : Nat) : ∀ (lines : List Line) (i : Nat) (s : Line),
    i ≤ stmtScanF f lines i s := by
  induction f with
  | zero => intro lines i s; simp [stmtScanF]
  | succ f ih =>
    intro lines i s
    unfold stmtScanF
    split_ifs <;> first
      | omega
      | exact le_trans (Nat.le_succ i) (ih lines (i + 1) _)

theorem braceFindF_ge (f : Nat) : ∀ (lines : List Line) (i : Nat) (c : Int) (j : Nat),
    braceFindF f lines i c = some j → i ≤ j ∧ j < lines.length := by
  induction f with
  | zero => intro lines i c j h; simp [braceFindF] at h
  | succ f ih =>
    intro lines i c j h
    unfold braceFindF at h
    split_ifs at h with h1 h2
    · have hij : i = j := by injection h
      subst hij
      exact ⟨le_refl i, h1⟩
    · have h3 := ih lines (i + 1) _ j h
      exact ⟨le_trans (Nat.le_succ i) h3.1, h3.2⟩

theorem codeBraceScan_ge (lines : List Line) (i : Nat) (c : Int) (j : Nat)
    (h : codeBraceScan lines i c = some j) : i ≤ j ∧ j < lines.length :=
  braceFindF_ge (lines.length - i) lines i c j h

theorem accScanStop_gt (lines : List Line) (i : Nat) : i < accScanStop lines i := by
  unfold accScanStop
  have hb := bareScanF_ge (lines.length - i) lines i
  split_ifs <;> omega

theorem helperStop_gt (lines : List Line) (i : Nat) (hi : i < lines.length) :
    i < helperStop lines i := by
  rcases hj : codeBraceScan lines (i + 1) 0 with _ | j
  · simp only [helperStop, hj]
    exact hi
  · have h := codeBraceScan_ge lines (i + 1) 0 j hj
    simp only [helperStop, hj]
    omega


theorem stepOnce_start (lines : List Line) (i : Nat) : (stepOnce lines i).start = i := rfl

theorem stepOnce_stop_gt (lines : List Line) (i : Nat) (hi : i < lines.length) :
    i < (stepOnce lines i).stop := by
  show i < stepStop lines i
  unfold stepStop
  have h4 := helperMacroScanF_ge (lines.length - i) lines i
  have h10 := withScanF_ge (lines.length - i) lines i
  have h11 := accScanStop_gt lines i
  have h12 := helperStop_gt lines i hi
  have h14 := scanUntilF_gt (lines.length - i) lines (".await?").toList i (by omega) hi
  have h15 := stmtScanF_ge (lines.length - i) lines i (lines.getD i [])
  have h16 := scanUntilF_gt (lines.length - i) lines (".await;").toList i (by omega) hi
  split_ifs <;> omega

theorem stepOnce_copy (lines : List Line) (i : Nat)
    (h : (stepOnce lines i).rule = none) :
    (stepOnce lines i).stop = i + 1 ∧ (stepOnce lines i).emit = [lines.getD i []] := by
  have hr : ruleAt lines i = none := h
  constructor
  · show stepStop lines i = i + 1
    simp [stepStop, hr]
  · show stepEmit lines i = [lines.getD i []]
    simp [stepEmit, hr]

theorem refactorLoopF_eq (f : Nat) : ∀ (lines : List Line) (i : Nat) (out : List Line),
    refactorLoopF f lines i out = out ++ ((stepsFromF f lines i).map Step.emit).flatten := by
  induction f with
  | zero => intro lines i out; simp [refactorLoopF, stepsFromF]
  | succ f ih =>
    intro lines i out
    unfold refactorLoopF stepsFromF
    split_ifs with h1
    · rw [ih]
      simp [List.append_assoc]
    · simp

theorem chained_stepsFromF (lines : List Line) : ∀ (f i : Nat), lines.length - i ≤ f →
    ChainedFrom lines.length i (stepsFromF f lines i) := by
  intro f
  induction f with
  | zero =>
    intro i hf
    simp only [stepsFromF, ChainedFrom]
    omega
  | succ f ih =>
    intro i hf
    unfold stepsFromF
    split_ifs with h1
    · refine ⟨stepOnce_start lines i, h1, stepOnce_stop_gt lines i h1, ?_⟩
      exact ih (stepOnce lines i).stop (by have := stepOnce_stop_gt lines i h1; omega)
    · simp only [ChainedFrom]
      omega

theorem chained_mem {n : Nat} : ∀ {i : Nat} {steps : List Step}, ChainedFrom n i steps →
    ∀ s ∈ steps, i ≤ s.start ∧ s.start < n ∧ s.start < s.stop := by
  intro i steps
  induction steps generalizing i with
  | nil => intro _ s hs; simp at hs
  | cons a rest ih =>
    intro h s hs
    obtain ⟨ha, hin, hlt, hrest⟩ := h
    rcases List.mem_cons.mp hs with hs1 | hs1
    · subst hs1; omega
    · have h2 := ih hrest s hs1
      omega

theorem chained_pairwise {n : Nat} : ∀ {i : Nat} {steps : List Step}, ChainedFrom n i steps →
    steps.Pairwise (fun a b => a.stop ≤ b.start) := by
  intro i steps
  induction steps generalizing i with
  | nil => intro _; exact List.Pairwise.nil
  | cons a rest ih =>
    intro h
    obtain ⟨ha, hin, hlt, hrest⟩ := h
    refine List.Pairwise.cons ?_ (ih hrest)
    intro b hb
    have := (chained_mem hrest b hb).1
    omega

theorem chained_chain_start {n : Nat} : ∀ {i : Nat} {steps : List Step}, ChainedFrom n i steps →
    List.Chain' (fun a b => a.start < b.start) steps := by
  intro i steps
  induction steps generalizing i with
  | nil => intro _; exact List.chain'_nil
  | cons a rest ih =>
    intro h
    obtain ⟨ha, hin, hlt, hrest⟩ := h
    cases rest with
    | nil => simp
    | cons b rest2 =>
      refine List.Chain'.cons ?_ (ih hrest)
      have hb : b.start = a.stop := hrest.1
      omega

theorem chained_sum_span {n : Nat} : ∀ {i : Nat} {steps : List Step}, ChainedFrom n i steps →
    ((steps.map (fun s => min s.stop n - s.start)).sum) = n - i := by
  intro i steps
  induction steps generalizing i with
  | nil => intro h; simp only [ChainedFrom] at h; simp; omega
  | cons a rest ih =>
    intro h
    obtain ⟨ha, hin, hlt, hrest⟩ := h
    have hr := ih hrest
    simp only [List.map_cons, List.sum_cons, hr]
    omega

theorem stepsFromF_mem_eq (lines : List Line) : ∀ (f i : Nat) (s : Step),
    s ∈ stepsFromF f lines i → s = stepOnce lines s.start := by
  intro f
  induction f with
  | zero => intro i s h; simp [stepsFromF] at h
  | succ f ih =>
    intro i s h
    unfold stepsFromF at h
    split_ifs at h with h1
    · rcases List.mem_cons.mp h with h2 | h2
      · subst h2; rw [stepOnce_start]
      · exact ih _ s h2
    · simp at h

theorem sum_map_filter_split (g : Step → Nat) (p : Step → Bool) : ∀ (l : List Step),
    ((l.filter p).map g).sum + ((l.filter (fun s => ! p s)).map g).sum = (l.map g).sum := by
  intro l
  induction l with
  | nil => simp
  | cons a rest ih =>
    have h := ih
    cases hpa : p a
    · simp [List.filter_cons, hpa]
      omega
    · simp [List.filter_cons, hpa]
      omega

theorem refactorSteps_chained (lines : List Line) :
    ChainedFrom lines.length 0 (refactorSteps lines) :=
  chained_stepsFromF lines lines.length 0 (by omega)

theorem refactor_eq_flatten (lines : List Line) :
    refactor lines = ((refactorSteps lines).map Step.emit).flatten := by
  have h := refactorLoopF_eq lines.length lines 0 []
  simpa [refactor, refactorSteps] using h

theorem refactorSteps_copy_facts (lines : List Line) (s : Step)
    (hmem : s ∈ refactorSteps lines) (hrule : s.rule = none) :
    s.stop = s.start + 1 ∧ s.emit = [lines.getD s.start []] := by
  have heq := stepsFromF_mem_eq lines lines.length 0 s hmem
  have h2 := stepOnce_copy lines s.start (by rw [← heq]; exact hrule)
  rw [← heq] at h2
  exact h2

theorem refactor_length_eq (lines : List Line) :
    (refactor lines).length
      + (((refactorSteps lines).filter (fun s => s.rule.isSome)).map
          (fun s => min s.stop lines.length - s.start)).sum
    = lines.length
      + (((refactorSteps lines).filter (fun s => s.rule.isSome)).map
          (fun s => s.emit.length)).sum := by
  have hchain := refactorSteps_chained lines
  have hlen : (refactor lines).length
      = ((refactorSteps lines).map (fun s => s.emit.length)).sum := by
    rw [refactor_eq_flatten, List.length_flatten, List.map_map]
    rfl
  have hspan : ((refactorSteps lines).map
      (fun s => min s.stop lines.length - s.start)).sum = lines.length := by
    have h := chained_sum_span hchain
    simpa using h
  have hsplit1 := sum_map_filter_split (fun s => min s.stop lines.length - s.start)
    (fun s => s.rule.isSome) (refactorSteps lines)
  have hsplit2 := sum_map_filter_split (fun s => s.emit.length)
    (fun s => s.rule.isSome) (refactorSteps lines)
  have hcopy : (((refactorSteps lines).filter (fun s => ! s.rule.isSome)).map
        (fun s => min s.stop lines.length - s.start)).sum
      = (((refactorSteps lines).filter (fun s => ! s.rule.isSome)).map
        (fun s => s.emit.length)).sum := by
    apply congrArg List.sum
    apply List.map_congr_left
    intro s hs
    have hmem : s ∈ refactorSteps lines := List.mem_of_mem_filter hs
    have hrule : s.rule = none := by
      have hb := List.of_mem_filter hs
      cases hr : s.rule with
      | none => rfl
      | some r => rw [hr] at hb; simp at hb
    have hfacts := refactorSteps_copy_facts lines s hmem hrule
    have hlt := chained_mem hchain s hmem
    rw [hfacts.2]
    simp only [List.length_cons, List.length_nil]
    omega
  omega

theorem subScanF_no_match (m : Matcher) : ∀ (f : Nat) (prev : Option Char) (s : List Char),
    scanHasMatchF m f prev s = false → subScanF m f prev s = s := by
  intro f
  induction f with
  | zero => intro prev s h; rfl
  | succ f ih =>
    intro prev s h
    cases s with
    | nil => rfl
    | cons c rest =>
      unfold scanHasMatchF at h
      unfold subScanF
      cases hm : m prev (c :: rest) with
      | some kr =>
        simp only [hm] at h
        exact Bool.noConfusion h
      | none =>
        simp only [hm] at h
        simp only [hm]
        rw [ih (some c) rest h]

theorem subScanF_length_le (m : Matcher)
    (hm : ∀ prev s k r, m prev s = some (k, r) → 1 ≤ k ∧ k ≤ s.length ∧ r.length < k) :
    ∀ (f : Nat) (prev : Option Char) (s : List Char),
    (subScanF m f prev s).length ≤ s.length := by
  intro f
  induction f with
  | zero => intro prev s; exact le_refl _
  | succ f ih =>
    intro prev s
    cases s with
    | nil => simp [subScanF]
    | cons c rest =>
      unfold subScanF
      cases hmm : m prev (c :: rest) with
      | some kr =>
        obtain ⟨k, r⟩ := kr
        obtain ⟨hk1, hk2, hr⟩ := hm prev (c :: rest) k r hmm
        simp only [hmm, List.length_append]
        have h2 := ih (some (((c :: rest).take k).getLastD c)) ((c :: rest).drop k)
        have h3 : ((c :: rest).drop k).length = (c :: rest).length - k := by
          simp [List.length_drop]
        omega
      | none =>
        simp only [hmm, List.length_cons]
        have h2 := ih (some c) rest
        omega

theorem subScanF_length_lt (m : Matcher)
    (hm : ∀ prev s k r, m prev s = some (k, r) → 1 ≤ k ∧ k ≤ s.length ∧ r.length < k) :
    ∀ (f : Nat) (prev : Option Char) (s : List Char),
    scanHasMatchF m f prev s = true → (subScanF m f prev s).length < s.length := by
  intro f
  induction f with
  | zero => intro prev s h; simp [scanHasMatchF] at h
  | succ f ih =>
    intro prev s h
    cases s with
    | nil => simp [scanHasMatchF] at h
    | cons c rest =>
      unfold scanHasMatchF at h
      unfold subScanF
      cases hmm : m prev (c :: rest) with
      | some kr =>
        obtain ⟨k, r⟩ := kr
        obtain ⟨hk1, hk2, hr⟩ := hm prev (c :: rest) k r hmm
        simp only [hmm, List.length_append]
        have h2 := subScanF_length_le m hm f
          (some (((c :: rest).take k).getLastD c)) ((c :: rest).drop k)
        have h3 : ((c :: rest).drop k).length = (c :: rest).length - k := by
          simp [List.length_drop]
        simp only [List.length_cons] at *
        omega
      | none =>
        simp only [hmm] at h
        simp only [hmm, List.length_cons]
        have h2 := ih (some c) rest h
        omega

theorem applySub_of_no_match (m : Matcher) (c : List Char)
    (h : hasMatch m c = false) : applySub m c = c :=
  subScanF_no_match m c.length none c h

theorem metaMatch_bounds (prev : Option Char) (s : List Char) (k : Nat) (r : List Char)
    (h : metaMatch prev s = some (k, r)) : 1 ≤ k ∧ k ≤ s.length ∧ r.length < k := by
  unfold metaMatch at h
  split_ifs at h with h1 h2 h3 h4
  · have hp : (("&mut metadata").toList).length ≤ s.length := by
      rw [List.isPrefixOf_iff_prefix] at h1
      exact h1.length_le
    have hl13 : (("&mut metadata").toList).length = 13 := by decide
    simp only [Option.some.injEq, Prod.mk.injEq] at h
    obtain ⟨hk, hr⟩ := h
    refine ⟨by omega, by omega, ?_⟩
    rw [← hr]
    simp only [List.length_nil]
    omega
  · have hp : (("&metadata").toList).length ≤ s.length := by
      rw [List.isPrefixOf_iff_prefix] at h2
      exact h2.length_le
    have hl9 : (("&metadata").toList).length = 9 := by decide
    simp only [Option.some.injEq, Prod.mk.injEq] at h
    obtain ⟨hk, hr⟩ := h
    refine ⟨by omega, by omega, ?_⟩
    rw [← hr]
    simp only [List.length_nil]
    omega
  · obtain ⟨h3a, h3b⟩ := h3
    have hp : (("metadata").toList).length ≤ s.length := by
      rw [List.isPrefixOf_iff_prefix] at h3b
      exact h3b.length_le
    have hl8 : (("metadata").toList).length = 8 := by decide
    have hdlen : (s.drop 8).length = s.length - 8 := by simp [List.length_drop]
    have hws : metaCommaLen s + metaWsLen s ≤ (s.drop 8).length := by
      simp only [metaWsLen, metaCommaLen]
      split_ifs with hc
      · have h1len : 1 ≤ (s.drop 8).length := by
          cases hzz : s.drop 8 with
          | nil => rw [hzz] at hc; simp at hc
          | cons a t => simp
        have hwsle : (((s.drop 8).drop 1).takeWhile pyIsSpace).length
            ≤ ((s.drop 8).drop 1).length := (List.takeWhile_prefix pyIsSpace).length_le
        simp only [List.length_drop] at hwsle
        omega
      · have hwsle : (((s.drop 8).drop 0).takeWhile pyIsSpace).length
            ≤ ((s.drop 8).drop 0).length := (List.takeWhile_prefix pyIsSpace).length_le
        simp only [List.drop_zero] at hwsle ⊢
        omega
    simp only [Option.some.injEq, Prod.mk.injEq] at h
    obtain ⟨hk, hr⟩ := h
    refine ⟨by omega, by omega, ?_⟩
    rw [← hr]
    simp only [List.length_nil]
    omega

theorem beforeReqMatch_bounds (prev : Option Char) (s : List Char) (k : Nat) (r : List Char)
    (h : beforeReqMatch prev s = some (k, r)) : 1 ≤ k ∧ k ≤ s.length ∧ r.length < k := by
  simp only [beforeReqMatch] at h
  split_ifs at h with h1 h2
  rcases hd : (s.drop 33).drop ((s.drop 33).takeWhile (fun c => ¬ c = ')')).length
      with _ | ⟨a, r3⟩
  · rw [hd] at h
    simp at h
  · rw [hd] at h
    simp only [] at h
    split_ifs at h with h3
    have hp33 : 33 ≤ s.length := by
      rw [List.isPrefixOf_iff_prefix] at h1
      have hx := h1.length_le
      have hl : (("        self.call_before_request(").toList).length = 33 := by decide
      omega
    have hinner : ((s.drop 33).takeWhile (fun c => ¬ c = ')')).length ≤ (s.drop 33).length :=
      (List.takeWhile_prefix _).length_le
    have hdrop : (s.drop 33).length = s.length - 33 := by rw [List.length_drop]
    have hcons : ((s.drop 33).drop ((s.drop 33).takeWhile (fun c => ¬ c = ')')).length).length
        = r3.length + 1 := by rw [hd]; simp
    have hdrop2 : ((s.drop 33).drop ((s.drop 33).takeWhile (fun c => ¬ c = ')')).length).length
        = (s.drop 33).length - ((s.drop 33).takeWhile (fun c => ¬ c = ')')).length := by
      rw [List.length_drop]
    have hws : (r3.takeWhile pyIsSpace).length ≤ r3.length :=
      (List.takeWhile_prefix _).length_le
    have h9 : 9 ≤ (r3.drop (r3.takeWhile pyIsSpace).length).length := by
      rw [List.isPrefixOf_iff_prefix] at h3
      have hx := h3.length_le
      have hl : ((".await?;\n").toList).length = 9 := by decide
      omega
    have hdrop3 : (r3.drop (r3.takeWhile pyIsSpace).length).length
        = r3.length - (r3.takeWhile pyIsSpace).length := by
      rw [List.length_drop]
    simp only [Option.some.injEq, Prod.mk.injEq] at h
    obtain ⟨hk, hr⟩ := h
    refine ⟨by omega, by omega, ?_⟩
    rw [← hr]
    simp only [List.length_nil]
    omega

theorem afterRespMatch_bounds (prev : Option Char) (s : List Char) (k : Nat) (r : List Char)
    (h : afterRespMatch prev s = some (k, r)) : 1 ≤ k ∧ k ≤ s.length ∧ r.length < k := by
  simp only [afterRespMatch] at h
  split_ifs at h with h1 h2
  rcases hd : (s.drop 33).drop ((s.drop 33).takeWhile (fun c => ¬ c = ')')).length
      with _ | ⟨a, r3⟩
  · rw [hd] at h
    simp at h
  · rw [hd] at h
    simp only [] at h
    split_ifs at h with h3
    have hp33 : 33 ≤ s.length := by
      rw [List.isPrefixOf_iff_prefix] at h1
      have hx := h1.length_le
      have hl : (("        self.call_after_response(").toList).length = 33 := by decide
      omega
    have hinner : ((s.drop 33).takeWhile (fun c => ¬ c = ')')).length ≤ (s.drop 33).length :=
      (List.takeWhile_prefix _).length_le
    have hdrop : (s.drop 33).length = s.length - 33 := by rw [List.length_drop]
    have hcons : ((s.drop 33).drop ((s.drop 33).takeWhile (fun c => ¬ c = ')')).length).length
        = r3.length + 1 := by rw [hd]; simp
    have hdrop2 : ((s.drop 33).drop ((s.drop 33).takeWhile (fun c => ¬ c = ')')).length).length
        = (s.drop 33).length - ((s.drop 33).takeWhile (fun c => ¬ c = ')')).length := by
      rw [List.length_drop]
    have hws : (r3.takeWhile pyIsSpace).length ≤ r3.length :=
      (List.takeWhile_prefix _).length_le
    have h8 : 8 ≤ (r3.drop (r3.takeWhile pyIsSpace).length).length := by
      rw [List.isPrefixOf_iff_prefix] at h3
      have hx := h3.length_le
      have hl : ((".await;\n").toList).length = 8 := by decide
      omega
    have hdrop3 : (r3.drop (r3.takeWhile pyIsSpace).length).length
        = r3.length - (r3.takeWhile pyIsSpace).length := by
      rw [List.length_drop]
    simp only [Option.some.injEq, Prod.mk.injEq] at h
    obtain ⟨hk, hr⟩ := h
    refine ⟨by omega, by omega, ?_⟩
    rw [← hr]
    simp only [List.length_nil]
    omega

theorem handleErrMatch_bounds (prev : Option Char) (s : List Char) (k : Nat) (r : List Char)
    (h : handleErrMatch prev s = some (k, r)) : 1 ≤ k ∧ k ≤ s.length ∧ r.length < k := by
  simp only [handleErrMatch] at h
  split_ifs at h with h1 h2 h3 h4
  have hws : (s.takeWhile pyIsSpace).length ≤ s.length :=
    (List.takeWhile_prefix _).length_le
  have hp24 : 24 ≤ (s.drop (s.takeWhile pyIsSpace).length).length := by
    rw [List.isPrefixOf_iff_prefix] at h2
    have hx := h2.length_le
    have hl : (("self.handle_api_error(e,").toList).length = 24 := by decide
    omega
  have hdrop : (s.drop (s.takeWhile pyIsSpace).length).length
      = s.length - (s.takeWhile pyIsSpace).length := by
    rw [List.length_drop]
  have hmid : (((s.drop (s.takeWhile pyIsSpace).length).drop 24).takeWhile
        (fun c => ¬ c = ')')).length
      ≤ ((s.drop (s.takeWhile pyIsSpace).length).drop 24).length :=
    (List.takeWhile_prefix _).length_le
  have hdrop24 : ((s.drop (s.takeWhile pyIsSpace).length).drop 24).length
      = (s.drop (s.takeWhile pyIsSpace).length).length - 24 := by
    rw [List.length_drop]
  have hne : 0 < (((s.drop (s.takeWhile pyIsSpace).length).drop 24).drop
      (((s.drop (s.takeWhile pyIsSpace).length).drop 24).takeWhile
        (fun c => ¬ c = ')')).length).length := List.length_pos.mpr h4
  have hdropmid : (((s.drop (s.takeWhile pyIsSpace).length).drop 24).drop
        (((s.drop (s.takeWhile pyIsSpace).length).drop 24).takeWhile
          (fun c => ¬ c = ')')).length).length
      = ((s.drop (s.takeWhile pyIsSpace).length).drop 24).length
        - (((s.drop (s.takeWhile pyIsSpace).length).drop 24).takeWhile
            (fun c => ¬ c = ')')).length := by
    rw [List.length_drop]
  simp only [Option.some.injEq, Prod.mk.injEq] at h
  obtain ⟨hk, hr⟩ := h
  have hlit : (("map_api_error(e)").toList).length = 16 := by decide
  refine ⟨by omega, by omega, ?_⟩
  rw [← hr]
  simp only [List.length_append]
  omega

theorem braceSum_self (lines : List Line) (i : Nat) :
    braceSum lines i i = braceDelta (lines.getD i []) := by
  have h1 : i + 1 - i = 1 := by omega
  rw [braceSum, h1]
  simp [List.range_succ]

theorem braceSum_peel (lines : List Line) (i k : Nat) (h : i ≤ k) :
    braceSum lines i k = braceDelta (lines.getD i []) + braceSum lines (i + 1) k := by
  unfold braceSum
  have h1 : k + 1 - i = (k - i) + 1 := by omega
  have h2 : k + 1 - (i + 1) = k - i := by omega
  rw [h1, h2]
  simp only [List.range_succ_eq_map, List.map_cons, List.sum_cons, List.map_map, Nat.add_zero]
  congr 1
  apply congrArg List.sum
  apply List.map_congr_left
  intro t ht
  simp only [Function.comp_apply]
  have h3 : i + Nat.succ t = i + 1 + t := by omega
  rw [h3]

theorem braceFindF_char (lines : List Line) : ∀ (f i : Nat) (c : Int) (j : Nat),
    braceFindF f lines i c = some j →
      i ≤ j ∧ j < lines.length ∧
      (c + braceSum lines i j = 0 ∧ pyStrip (lines.getD j []) = [closeBr]) ∧
      (∀ k, i ≤ k → k < j →
        ¬ (c + braceSum lines i k = 0 ∧ pyStrip (lines.getD k []) = [closeBr])) := by
  intro f
  induction f with
  | zero => intro i c j h; simp [braceFindF] at h
  | succ f ih =>
    intro i c j h
    unfold braceFindF at h
    split_ifs at h with h1 h2
    · have hij : i = j := by injection h
      subst hij
      refine ⟨le_refl i, h1, ?_, ?_⟩
      · rw [braceSum_self]
        exact h2
      · intro k hk1 hk2
        omega
    · obtain ⟨hj1, hj2, hstop, hmin⟩ := ih (i + 1) (c + braceDelta (lines.getD i [])) j h
      have hpeel : ∀ k, i + 1 ≤ k → c + braceSum lines i k
          = (c + braceDelta (lines.getD i [])) + braceSum lines (i + 1) k := by
        intro k hk
        rw [braceSum_peel lines i k (by omega)]
        ring
      refine ⟨by omega, hj2, ?_, ?_⟩
      · rw [hpeel j hj1]
        exact hstop
      · intro k hk1 hk2
        rcases Nat.eq_or_lt_of_le hk1 with heq | hlt
        · subst heq
          rw [braceSum_self]
          exact h2
        · rw [hpeel k (by omega)]
          exact hmin k (by omega) hk2

theorem codeBraceScan_char (lines : List Line) (i : Nat) (c : Int) (j : Nat)
    (h : codeBraceScan lines i c = some j) :
    i ≤ j ∧ j < lines.length ∧
      (c + braceSum lines i j = 0 ∧ pyStrip (lines.getD j []) = [closeBr]) ∧
      (∀ k, i ≤ k → k < j →
        ¬ (c + braceSum lines i k = 0 ∧ pyStrip (lines.getD k []) = [closeBr])) :=
  braceFindF_char lines (lines.length - i) i c j h

theorem ruleAt_handle (lines : List Line) (i : Nat)
    (n1 : hasSub ("use crate::interceptor") (lines.getD i []) = false)
    (n2 : hasSub ("clippy::too_many_arguments") (lines.getD i []) = false)
    (n2b : ¬ (0 < i ∧ hasSub ("Allow this lint") (lines.getD (i - 1) []) = true))
    (n3 : hasSub ("use tokio::sync::RwLock") (lines.getD i []) = false)
    (n4 : hasSub ("// Helper macro to generate") (lines.getD i []) = false)
    (n5 : hasSub ("impl_interceptor_helpers!") (lines.getD i []) = false)
    (n6 : hasSub ("    interceptors: Arc<RwLock<InterceptorChain>>,") (lines.getD i []) = false)
    (n7 : hasSub ("since InterceptorChain") (lines.getD i []) = false)
    (n8 : hasSub (".field(\"interceptors\"") (lines.getD i []) = false)
    (n9 : hasSub ("            interceptors: Arc::new") (lines.getD i []) = false)
    (n10 : hasSub ("    /// Add an interceptor") (lines.getD i []) = false)
    (n11 : hasSub ("pub(crate) fn interceptors") (lines.getD i []) = false)
    (n12 : hasSub ("// Interceptor helper methods") (lines.getD i []) = false)
    (n13a : hasSub ("        let mut metadata = HashMap::new();") (lines.getD i []) = false)
    (n13b : hasSub ("        let metadata = HashMap::new();") (lines.getD i []) = false)
    (n14 : hasSub ("        self.call_before_request") (lines.getD i []) = false)
    (p15 : hasSub (".handle_api_error(") (lines.getD i []) = true) :
    ruleAt lines i = some 15 := by
  unfold ruleAt
  rw [if_neg (by simp only [n1, Bool.false_eq_true]; exact not_false),
    if_neg (by simp only [n2, Bool.false_eq_true, false_or]; exact n2b),
    if_neg (by simp only [n3, Bool.false_eq_true]; exact not_false),
    if_neg (by simp only [n4, Bool.false_eq_true]; exact not_false),
    if_neg (by simp only [n5, Bool.false_eq_true]; exact not_false),
    if_neg (by simp only [n6, Bool.false_eq_true]; exact not_false),
    if_neg (by simp only [n7, Bool.false_eq_true]; exact not_false),
    if_neg (by simp only [n8, Bool.false_eq_true]; exact not_false),
    if_neg (by simp only [n9, Bool.false_eq_true]; exact not_false),
    if_neg (by simp only [n10, Bool.false_eq_true]; exact not_false),
    if_neg (by simp only [n11, Bool.false_eq_true]; exact not_false),
    if_neg (by simp only [n12, Bool.false_eq_true]; exact not_false),
    if_neg (by simp only [n13a, n13b, Bool.false_eq_true, or_self]; exact not_false),
    if_neg (by simp only [n14, Bool.false_eq_true]; exact not_false),
    if_pos p15]

theorem applySub_length_le (m : Matcher)
    (hm : ∀ prev s k r, m prev s = some (k, r) → 1 ≤ k ∧ k ≤ s.length ∧ r.length < k)
    (c : List Char) : (applySub m c).length ≤ c.length :=
  subScanF_length_le m hm c.length none c

theorem applySub_length_lt (m : Matcher)
    (hm : ∀ prev s k r, m prev s = some (k, r) → 1 ≤ k ∧ k ≤ s.length ∧ r.length < k)
    (c : List Char) (h : hasMatch m c = true) : (applySub m c).length < c.length :=
  subScanF_length_lt m hm c.length none c h

theorem fixClient_fixed_of_no_match (c : List Char)
    (h1 : hasMatch beforeReqMatch c = false) (h2 : hasMatch handleErrMatch c = false)
    (h3 : hasMatch afterRespMatch c = false) (h4 : hasMatch metaMatch c = false) :
    fix_client c = c := by
  show removeMetadata (sub3 (sub2 (sub1 c))) = c
  unfold sub1 sub2 sub3 removeMetadata
  rw [applySub_of_no_match _ _ h1, applySub_of_no_match _ _ h2,
    applySub_of_no_match _ _ h3, applySub_of_no_match _ _ h4]

theorem fixClient_length_lt (c : List Char)
    (h : ¬ (hasMatch beforeReqMatch c = false ∧ hasMatch handleErrMatch c = false
        ∧ hasMatch afterRespMatch c = false ∧ hasMatch metaMatch c = false)) :
    (fix_client c).length < c.length := by
  have le2 : ∀ x : List Char, (sub2 x).length ≤ x.length := fun x =>
    applySub_length_le handleErrMatch handleErrMatch_bounds x
  have le3 : ∀ x : List Char, (sub3 x).length ≤ x.length := fun x =>
    applySub_length_le afterRespMatch afterRespMatch_bounds x
  have le4 : ∀ x : List Char, (removeMetadata x).length ≤ x.length := fun x =>
    applySub_length_le metaMatch metaMatch_bounds x
  show (removeMetadata (sub3 (sub2 (sub1 c)))).length < c.length
  cases hx1 : hasMatch beforeReqMatch c with
  | true =>
    have l1 : (sub1 c).length < c.length :=
      applySub_length_lt beforeReqMatch beforeReqMatch_bounds c hx1
    have g2 := le2 (sub1 c)
    have g3 := le3 (sub2 (sub1 c))
    have g4 := le4 (sub3 (sub2 (sub1 c)))
    omega
  | false =>
    have e1 : sub1 c = c := applySub_of_no_match _ _ hx1
    rw [e1]
    cases hx2 : hasMatch handleErrMatch c with
    | true =>
      have l2 : (sub2 c).length < c.length :=
        applySub_length_lt handleErrMatch handleErrMatch_bounds c hx2
      have g3 := le3 (sub2 c)
      have g4 := le4 (sub3 (sub2 c))
      omega
    | false =>
      have e2 : sub2 c = c := applySub_of_no_match _ _ hx2
      rw [e2]
      cases hx3 : hasMatch afterRespMatch c with
      | true =>
        have l3 : (sub3 c).length < c.length :=
          applySub_length_lt afterRespMatch afterRespMatch_bounds c hx3
        have g4 := le4 (sub3 c)
        omega
      | false =>
        have e3 : sub3 c = c := applySub_of_no_match _ _ hx3
        rw [e3]
        cases hx4 : hasMatch metaMatch c with
        | true => exact applySub_length_lt metaMatch metaMatch_bounds c hx4
        | false => exact absurd ⟨hx1, hx2, hx3, hx4⟩ h

/-- Claim C1, counterexample: the brace loop of the source (lines 84-96 of
refactor_client_complete.py) does not implement the claimed depth-resolver
semantics.  On the buffer whose marker line opens a brace and whose next
line closes it with trailing text, the claimed resolver (scanning from the
marker line with initial depth zero) ends at line 1, while the source loop
(which skips the marker line and also demands that the ending line strip to
exactly a closing brace) finds no end at all and runs off the buffer. -/
theorem c1_counterexample :
    codeBraceScan c1CexLines 1 0 ≠ specResolveFrom c1CexLines 0 0
    ∧ specResolveFrom c1CexLines 0 0 = some 1 := by
  constructor
  · decide
  · decide

/-- Claim C1 (amended): the source resolver scans from the line after the
marker with a count seeded at zero and per-line net brace updates, and
stops exactly at the first line after which the running count is zero and
which strips to exactly a closing brace (running off the buffer without an
end otherwise); in particular, on the synthetic construct written one token
per line (X, open brace, A, open brace, close brace, B, close brace, tail),
resolving from the X line ends exactly at the final closing brace before
tail, never earlier. -/
theorem c1_amended_brace_resolution :
    (∀ (lines : List Line) (i : Nat) (c : Int) (j : Nat),
      codeBraceScan lines i c = some j →
        i ≤ j ∧ j < lines.length ∧
        (c + braceSum lines i j = 0 ∧ pyStrip (lines.getD j []) = [closeBr]) ∧
        (∀ k, i ≤ k → k < j →
          ¬ (c + braceSum lines i k = 0 ∧ pyStrip (lines.getD k []) = [closeBr])))
    ∧ codeBraceScan c1SynthLines 1 0 = some 6 := by
  constructor
  · intro lines i c j h
    exact codeBraceScan_char lines i c j h
  · decide

/-- Claim C1, witness for the amended theorem at the synthetic construct. -/
theorem c1_amended_witness :
    codeBraceScan c1SynthLines 1 0 = some 6 ∧ 1 ≤ 6 ∧ 6 < c1SynthLines.length := by
  refine ⟨by decide, ?_, ?_⟩
  · exact (c1_amended_brace_resolution.1 c1SynthLines 1 0 6 (by decide)).1
  · exact (c1_amended_brace_resolution.1 c1SynthLines 1 0 6 (by decide)).2.1

/-- Claim C2, code evaluation at the failing input: on a buffer whose first
line matches the call_before_request start marker and which contains no
awaited-question terminator anywhere below, refactor() silently consumes
the marker line and every remaining line and returns an empty output
instead of failing with UnterminatedConstruct; the unrelated second line is
dropped. -/
theorem c2_truncation_eval :
    refactor c2FailLines = [] ∧ c2FailLines.length = 2 := by
  constructor
  · decide
  · decide

/-- Claim C3 (confirmed): the engine is a single forward pass.  The indices
at which the rule table is consulted (the start indices of the outer-loop
iterations) are strictly increasing, so the scan index never decreases and
each input line is the current line of a rule-table consultation at most
once; and the output buffer is append-only: the loop run from any index
with any already-emitted output returns that output with new lines appended
after it, so no already-emitted output line is re-examined. -/
theorem c3_single_forward_pass (lines : List Line) :
    List.Chain' (fun a b => a.start < b.start) (refactorSteps lines)
    ∧ ∀ (i : Nat) (out : List Line),
        refactorLoopF lines.length lines i out
          = out ++ refactorLoopF lines.length lines i [] := by
  constructor
  · exact chained_chain_start (refactorSteps_chained lines)
  · intro i out
    rw [refactorLoopF_eq, refactorLoopF_eq]
    simp

/-- Claim C4 (confirmed): conservation.  The output of refactor() is the
concatenation of the per-iteration emissions; the iteration spans chain
across the whole buffer from index 0 (so each input line lies in exactly
one span); a copy iteration consumes exactly its own line and emits it
verbatim, character for character; and the output length equals the input
length minus the clamped applied span lengths plus the inserted replacement
lengths. -/
theorem c4_conservation (lines : List Line) :
    refactor lines = ((refactorSteps lines).map Step.emit).flatten
    ∧ ChainedFrom lines.length 0 (refactorSteps lines)
    ∧ (∀ s ∈ refactorSteps lines, s.rule = none →
        s.stop = s.start + 1 ∧ s.emit = [lines.getD s.start []])
    ∧ (refactor lines).length
        + (((refactorSteps lines).filter (fun s => s.rule.isSome)).map
            (fun s => min s.stop lines.length - s.start)).sum
      = lines.length
        + (((refactorSteps lines).filter (fun s => s.rule.isSome)).map
            (fun s => s.emit.length)).sum := by
  refine ⟨refactor_eq_flatten lines, refactorSteps_chained lines, ?_, refactor_length_eq lines⟩
  intro s hs hrule
  exact refactorSteps_copy_facts lines s hs hrule

/-- Claim C4, witness at a concrete one-line buffer. -/
theorem c4_conservation_witness :
    refactor c4DemoLines = ((refactorSteps c4DemoLines).map Step.emit).flatten :=
  (c4_conservation c4DemoLines).1

/-- Claim C5, counterexample: fix_client is not idempotent.  On the content
meta&mut metadatadata, the first pass deletes the mut-reference match and
thereby concatenates the surrounding fragments into the fresh token
metadata, which only the second pass deletes, so applying the
transformation twice differs from applying it once. -/
theorem c5_not_idempotent_cex :
    fix_client (fix_client c5CexContent) ≠ fix_client c5CexContent := by
  decide

/-- Claim C5 (amended): fix_client is idempotent exactly on the contents
whose first-pass output matches zero rules.  First conjunct: a content on
which zero rules match is returned unchanged.  Second conjunct: applying
fix_client twice equals applying it once if and only if the first output
matches zero rules — every rule match strictly shortens the content, so if
any rule still matches the output, a second pass changes it.  The premise
can fail (see the counterexample), so unconditional idempotence does not
hold. -/
theorem c5_amended_idempotence (c : List Char) :
    (hasMatch beforeReqMatch c = false → hasMatch handleErrMatch c = false →
      hasMatch afterRespMatch c = false → hasMatch metaMatch c = false →
      fix_client c = c)
    ∧ (fix_client (fix_client c) = fix_client c
      ↔ (hasMatch beforeReqMatch (fix_client c) = false
        ∧ hasMatch handleErrMatch (fix_client c) = false
        ∧ hasMatch afterRespMatch (fix_client c) = false
        ∧ hasMatch metaMatch (fix_client c) = false)) := by
  constructor
  · intro h1 h2 h3 h4
    exact fixClient_fixed_of_no_match c h1 h2 h3 h4
  · constructor
    · intro hid
      by_contra hb
      have hlt := fixClient_length_lt (fix_client c) hb
      rw [hid] at hlt
      omega
    · rintro ⟨h1, h2, h3, h4⟩
      exact fixClient_fixed_of_no_match (fix_client c) h1 h2 h3 h4

/-- Claim C5, witness: a concrete content on which zero rules match is a
fixed point, and the idempotence equivalence holds there. -/
theorem c5_amended_witness :
    fix_client c5WitnessContent = c5WitnessContent
    ∧ fix_client (fix_client c5WitnessContent) = fix_client c5WitnessContent := by
  have h := c5_amended_idempotence c5WitnessContent
  refine ⟨h.1 (by decide) (by decide) (by decide) (by decide), ?_⟩
  exact h.2.mpr ⟨by decide, by decide, by decide, by decide⟩

/-- Claim C6, code evaluation: the file-operation sequence of fix_client()
opens the target itself for writing, which truncates it before the patched
content is written, and performs no temp-file write and no rename.  A run
interrupted after the truncating open but before the write leaves the
target empty instead of byte-for-byte untouched. -/
theorem c6_truncate_in_place_eval :
    runOps c6Input ((fixClientOps c6Input).take 3) = []
    ∧ c6Input ≠ []
    ∧ usesAtomicReplace (fixClientOps c6Input) = false := by
  refine ⟨?_, ?_, ?_⟩
  · decide
  · decide
  · decide

/-- Claim C7 (confirmed): the audit trail of applied records
(rule_id, start_index, end_index) has pairwise disjoint spans (each span
ends strictly before the next begins), strictly increasing start indices,
and well-formed spans. -/
theorem c7_audit_trail_disjoint (lines : List Line) :
    List.Pairwise (fun a b => a.2.2 < b.2.1) (auditTrail lines)
    ∧ List.Pairwise (fun a b => a.2.1 < b.2.1) (auditTrail lines)
    ∧ ∀ r ∈ auditTrail lines, r.2.1 ≤ r.2.2 := by
  have hchain := refactorSteps_chained lines
  have hpw := chained_pairwise hchain
  have hfilter : ((refactorSteps lines).filter (fun s => s.rule.isSome)).Pairwise
      (fun a b => a.stop ≤ b.start) :=
    List.Pairwise.sublist (List.filter_sublist _) hpw
  have hmemf : ∀ s ∈ (refactorSteps lines).filter (fun s => s.rule.isSome),
      s.start < lines.length ∧ s.start < s.stop := by
    intro s hs
    have h := chained_mem hchain s (List.mem_of_mem_filter hs)
    exact ⟨h.2.1, h.2.2⟩
  refine ⟨?_, ?_, ?_⟩
  · unfold auditTrail
    rw [List.pairwise_map]
    refine List.Pairwise.imp_of_mem ?_ hfilter
    intro a b ha hb hab
    have h1 := hmemf a ha
    simp only []
    omega
  · unfold auditTrail
    rw [List.pairwise_map]
    refine List.Pairwise.imp_of_mem ?_ hfilter
    intro a b ha hb hab
    have h1 := hmemf a ha
    simp only []
    omega
  · intro r hr
    unfold auditTrail at hr
    obtain ⟨s, hs, rfl⟩ := List.mem_map.mp hr
    have h1 := hmemf s hs
    simp only []
    omega

/-- Claim C8, counterexample: the final metadata substitution does not
remove every occurrence of the token metadata from the file.  On the
content meta&mut metadatadata, deleting the mut-reference match splices the
surrounding fragments into a fresh word-bounded occurrence of the token
metadata, which remains in the output. -/
theorem c8_metadata_token_remains :
    containsMetadataToken (removeMetadata c5CexContent) = true
    ∧ removeMetadata c5CexContent ≠ [] := by
  constructor
  · decide
  · decide

/-- Claim C8 (amended): the metadata substitution deletes every leftmost
non-overlapping match of its pattern in one pass over the entire content,
with no restriction to interceptor constructs: the content is returned
unchanged exactly when the pattern matches nowhere in it.  A deletion can
splice the surrounding fragments into a new occurrence, which is why the
output is not always free of the token. -/
theorem c8_amended_global_deletion (c : List Char) :
    removeMetadata c = c ↔ hasMatch metaMatch c = false := by
  constructor
  · intro h
    cases hx : hasMatch metaMatch c with
    | false => rfl
    | true =>
      have hlt := subScanF_length_lt metaMatch metaMatch_bounds c.length none c hx
      have hlen : (removeMetadata c).length < c.length := hlt
      rw [h] at hlen
      omega
  · intro h
    exact applySub_of_no_match metaMatch c h

/-- Claim C9, counterexample: the replacement emitted for a tab-indented
handle_api_error line is not the original leading whitespace followed by
the fixed call; the tab becomes a single space.  The second conjunct shows
the actually emitted line. -/
theorem c9_tab_counterexample :
    (stepOnce [c9TabLine] 0).emit
      ≠ [(c9TabLine.takeWhile pyIsSpace) ++ ("map_api_error(e)\n").toList]
    ∧ (stepOnce [c9TabLine] 0).emit = [(" map_api_error(e)\n").toList] := by
  constructor
  · decide
  · decide

/-- Claim C9 (amended): whenever no earlier rule matches the current line
and the line contains the handle_api_error marker, the emitted replacement
is exactly one space per leading-whitespace character of the original line
followed by the fixed text map_api_error(e) and a newline; the literal
identifier e is used regardless of the error-variable name in the original
call. -/
theorem c9_amended_replacement (lines : List Line) (i : Nat)
    (n1 : hasSub ("use crate::interceptor") (lines.getD i []) = false)
    (n2 : hasSub ("clippy::too_many_arguments") (lines.getD i []) = false)
    (n2b : ¬ (0 < i ∧ hasSub ("Allow this lint") (lines.getD (i - 1) []) = true))
    (n3 : hasSub ("use tokio::sync::RwLock") (lines.getD i []) = false)
    (n4 : hasSub ("// Helper macro to generate") (lines.getD i []) = false)
    (n5 : hasSub ("impl_interceptor_helpers!") (lines.getD i []) = false)
    (n6 : hasSub ("    interceptors: Arc<RwLock<InterceptorChain>>,") (lines.getD i []) = false)
    (n7 : hasSub ("since InterceptorChain") (lines.getD i []) = false)
    (n8 : hasSub (".field(\"interceptors\"") (lines.getD i []) = false)
    (n9 : hasSub ("            interceptors: Arc::new") (lines.getD i []) = false)
    (n10 : hasSub ("    /// Add an interceptor") (lines.getD i []) = false)
    (n11 : hasSub ("pub(crate) fn interceptors") (lines.getD i []) = false)
    (n12 : hasSub ("// Interceptor helper methods") (lines.getD i []) = false)
    (n13a : hasSub ("        let mut metadata = HashMap::new();") (lines.getD i []) = false)
    (n13b : hasSub ("        let metadata = HashMap::new();") (lines.getD i []) = false)
    (n14 : hasSub ("        self.call_before_request") (lines.getD i []) = false)
    (p15 : hasSub (".handle_api_error(") (lines.getD i []) = true) :
    (stepOnce lines i).emit
      = [List.replicate ((lines.getD i []).length - (pyLstrip (lines.getD i [])).length) ' '
          ++ ("map_api_error(e)\n").toList] := by
  have hr := ruleAt_handle lines i n1 n2 n2b n3 n4 n5 n6 n7 n8 n9 n10 n11 n12 n13a n13b n14 p15
  show stepEmit lines i = _
  simp [stepEmit, hr, mapApiLine]

/-- Claim C9, witness for the amended theorem at a space-indented line. -/
theorem c9_amended_witness :
    (stepOnce [c9SpaceLine] 0).emit
      = [List.replicate (([c9SpaceLine].getD 0 []).length
            - (pyLstrip ([c9SpaceLine].getD 0 [])).length) ' '
          ++ ("map_api_error(e)\n").toList] :=
  c9_amended_replacement [c9SpaceLine] 0 (by decide) (by decide) (by decide) (by decide)
    (by decide) (by decide) (by decide) (by decide) (by decide) (by decide) (by decide)
    (by decide) (by decide) (by decide) (by decide) (by decide) (by decide)

/-- Claim C10 (confirmed): termination of the outer loop of refactor().  On
every iteration whose index is inside the buffer, the next index computed
by the fired branch is strictly larger, so the loop performs at most one
iteration per input line. -/
theorem c10_loop_strictly_advances (lines : List Line) (i : Nat)
    (hi : i < lines.length) : i < (stepOnce lines i).stop :=
  stepOnce_stop_gt lines i hi

/-- Claim C10, witness at a concrete buffer and index. -/
theorem c10_witness : 0 < c2FailLines.length ∧ 0 < (stepOnce c2FailLines 0).stop :=
  ⟨by decide, c10_loop_strictly_advances c2FailLines 0 (by decide)⟩
